import Mathlib

/-!
Verification of the statistical sample-reduction engine of the `brunch`
benchmark runner: the `Abacus` sample set and its quantile / outlier-pruning
algorithms (`src/math.rs`), and the `Stats` record with its construction,
deviance test and history serialization (`src/stats.rs`).

Floating-point values are modelled by exact rationals (every finite `f64`
is a rational; the code pre-filters NaN/infinities and compares through
`f64::total_cmp`, so on the values that actually flow through the engine
the float order is the rational order and arithmetic is idealized as
exact). The square root inside `deviation` is the one operation with no
exact rational counterpart; it is abstracted as an arbitrary function with
the properties of the rounded `f64` square root that the code relies on
(see `SqrtFn`).
-/

-- Batteries marks the `Rat` field operations irreducible; re-opening them
-- lets concrete runs of the model be settled by kernel reduction.
attribute [local semireducible] Rat.add Rat.mul Rat.sub Rat.inv Rat.ofScientific

-- Kernel evaluation of the model on concrete sample sets runs through the
-- `2 ^ 1022` subnormal threshold, which needs a deeper elaborator stack.
set_option maxRecDepth 8000

namespace Brunch

/-- The number of runs of adjacent equal values in a pre-sorted list:
`count_unique` in `math.rs` dedups adjacent equal entries and takes the
resulting length. -/
def countUnique : List ℚ → ℕ
  | [] => 0
  | [_] => 1
  | a :: b :: t => (if a = b then 0 else 1) + countUnique (b :: t)

/-- A raw `f64` input sample: NaN, a signed infinity, or a finite value
(modelled by its exact rational value; the sign-of-zero distinction is not
modelled, `finite 0` stands for `+0.0`). -/
inductive F where
  | nan : F
  | inf (neg : Bool) : F
  | finite (q : ℚ) : F
deriving DecidableEq

/-- The smallest positive normal `f64`, `2 ^ (-1022)`: finite nonzero values
smaller in magnitude are subnormal, and `f64::is_normal` is false for them. -/
def minNormal : ℚ := mkRat 1 (2 ^ 1022)

/-- `f64::total_cmp` against `+0.0`, as used by the `retain` filter of
`impl From<Vec<f64>> for Abacus`. NaN is taken with a positive sign bit,
which sits above every real in the total order (a negative NaN would
compare `lt` and be dropped by the filter just the same). -/
def F.cmpZero : F → Ordering
  | .nan => .gt
  | .inf neg => if neg then .lt else .gt
  | .finite q => if q < 0 then .lt else if q = 0 then .eq else .gt

/-- `f64::is_normal`: finite, nonzero, and at least `minNormal` in
magnitude. -/
def F.isNormal : F → Bool
  | .finite q => decide (q ≠ 0 ∧ (minNormal ≤ q ∨ q ≤ -minNormal))
  | _ => false

/-- The numeric value of a finite sample (junk for NaN/Inf, which the
filter never keeps). -/
def F.toQ : F → ℚ
  | .finite q => q
  | _ => 0

/-- The `retain` predicate of `impl From<Vec<f64>> for Abacus`: keep a
value comparing equal to `+0.0`; keep a value comparing greater only when
it is normal; drop everything else. -/
def keepSample (f : F) : Bool :=
  match f.cmpZero with
  | .eq => true
  | .gt => f.isNormal
  | .lt => false

/-- Ascending sort. The source sorts by `f64::total_cmp`; on the NaN-free
values the filter leaves that is the numeric order, and the sorted
rearrangement of a list is unique, so a structurally recursive insertion
sort is extensionally the same function. -/
def sortQ (l : List ℚ) : List ℚ := l.insertionSort (· ≤ ·)

/-- `Abacus` (`math.rs`): the sorted sample set plus its cached length,
distinct-value count and sum. -/
structure Abacus where
  set : List ℚ
  len : ℕ
  unique : ℕ
  total : ℚ
deriving DecidableEq

/-- `impl From<Vec<f64>> for Abacus`: drop negative and abnormal values,
sort ascending, and pre-compute the totals. -/
def Abacus.ofF (src : List F) : Abacus :=
  let set := sortQ ((src.filter keepSample).map F.toQ)
  { set := set, len := set.length, unique := countUnique set, total := set.sum }

/-- `impl From<Vec<Duration>> for Abacus`: a `Duration` is a whole number
of nanoseconds, read off as seconds by `Duration::as_secs_f64`. -/
def Abacus.ofDurations (src : List ℕ) : Abacus :=
  Abacus.ofF (src.map fun n : ℕ => F.finite (mkRat (n : ℤ) 1000000000))

/-- `Abacus::f_len`: the cached length as a float. -/
def Abacus.flen (a : Abacus) : ℚ := (a.len : ℚ)

/-- `Abacus::min`: first element, `0.0` when empty. -/
def Abacus.min (a : Abacus) : ℚ := if a.len = 0 then 0 else a.set.getD 0 0

/-- `Abacus::max`: last element (indexed with the cached length), `0.0`
when empty. -/
def Abacus.max (a : Abacus) : ℚ := if a.len = 0 then 0 else a.set.getD (a.len - 1) 0

/-- `Abacus::mean`. -/
def Abacus.mean (a : Abacus) : ℚ :=
  if a.len = 0 then 0
  else if a.unique = 1 then a.set.getD 0 0
  else a.total / a.flen

/-- The radicand of `Abacus::deviation`: the mean (over `n`, not `n - 1`)
of the squared deviations from the mean, i.e. the population variance. -/
def Abacus.radicand (a : Abacus) : ℚ :=
  ((a.set.map fun n => (a.mean - n) * (a.mean - n)).sum) / a.flen

/-- The behaviour of `f64::sqrt` on the nonnegative radicands `deviation`
feeds it. The exact square root is irrational in general, so the model
quantifies over any function with the two properties of the correctly
rounded `f64` square root that the code relies on: nonnegative results,
and positive exactly on positive input. -/
structure SqrtFn where
  f : ℚ → ℚ
  nonneg : ∀ q, 0 ≤ q → 0 ≤ f q
  pos_iff : ∀ q, 0 ≤ q → (0 < f q ↔ 0 < q)

/-- `Abacus::deviation`: population standard deviation (the `n`, not
`n + 1`, approach), `0.0` when empty or all values identical. -/
def Abacus.deviation (a : Abacus) (s : SqrtFn) : ℚ :=
  if a.len = 0 ∨ a.unique = 1 then 0 else s.f a.radicand

/-- `Abacus::count_below`: entries strictly below the target — a
`take_while` prefix of the sorted set. -/
def Abacus.countBelow (a : Abacus) (num : ℚ) : ℕ :=
  (a.set.takeWhile fun n => decide (n < num)).length

/-- `Abacus::count_above`: entries strictly above the target — a
`take_while` prefix of the reversed set. -/
def Abacus.countAbove (a : Abacus) (num : ℚ) : ℕ :=
  (a.set.reverse.takeWhile fun n => decide (num < n)).length

/-- Helper for `stepDown`: scan for the first occurrence of `num`,
remembering the element just before the scan position. -/
def stepDownAux (prev : ℚ) : List ℚ → ℚ → Option ℚ
  | [], _ => none
  | b :: t, num => if b = num then some prev else stepDownAux b t num

/-- `Abacus::step_down`: the entry just before the first occurrence of
`num`, when both exist. -/
def Abacus.stepDown (a : Abacus) (num : ℚ) : Option ℚ :=
  match a.set with
  | [] => none
  | b :: t => if b = num then none else stepDownAux b t num

/-- The index of the last occurrence of `num` (Rust's `rposition`). -/
def rposAux : List ℚ → ℚ → Option ℕ
  | [], _ => none
  | b :: t, num =>
    match rposAux t num with
    | some i => some (i + 1)
    | none => if b = num then some 0 else none

/-- `Abacus::step_up`: the entry just after the last occurrence of `num`,
when it exists and the successor index is inside the cached length. -/
def Abacus.stepUp (a : Abacus) (num : ℚ) : Option ℚ :=
  match rposAux a.set num with
  | none => none
  | some pos => if pos + 1 < a.len then some (a.set.getD (pos + 1) 0) else none

/-- `usize::abs_diff`. -/
def natAbsDiff (a b : ℕ) : ℕ := if b ≤ a then a - b else b - a

/-- `quantile_diff`: the averaged absolute distance between the actual and
ideal below/above counts (`dactyl::int_div_float(x, 2)` is exact division
by two here). -/
def quantileDiff (below above refBelow refAbove : ℕ) : ℚ :=
  ((natAbsDiff below refBelow + natAbsDiff above refAbove : ℕ) : ℚ) / 2

/-- Floor of a rational (`den` is positive, so flooring is floor-division
of the numerator by the denominator). -/
def qfloor (q : ℚ) : ℤ := q.num.fdiv q.den

/-- `f64::round`: round half away from zero. -/
def fRound (q : ℚ) : ℤ := if q < 0 then -qfloor (1 / 2 - q) else qfloor (q + 1 / 2)

/-- The descending refinement loop of `Abacus::quantile`: keep stepping to
the next smaller distinct value while the symmetry score strictly improves,
carrying the best value and score. Each step moves strictly down the
finite set, so `a.len` fuel never runs out. -/
def Abacus.walkDown (a : Abacus) (tb ta : ℕ) : ℕ → ℚ → ℚ → ℚ → ℚ × ℚ
  | 0, _, out, diff => (out, diff)
  | fuel + 1, last, out, diff =>
    match a.stepDown last with
    | none => (out, diff)
    | some other =>
      let diff2 := quantileDiff (a.countBelow other) (a.countAbove other) tb ta
      if diff2 < diff then a.walkDown tb ta fuel other other diff2
      else (out, diff)

/-- The ascending refinement loop of `Abacus::quantile`, symmetric to
`walkDown`. -/
def Abacus.walkUp (a : Abacus) (tb ta : ℕ) : ℕ → ℚ → ℚ → ℚ → ℚ × ℚ
  | 0, _, out, diff => (out, diff)
  | fuel + 1, last, out, diff =>
    match a.stepUp last with
    | none => (out, diff)
    | some other =>
      let diff2 := quantileDiff (a.countBelow other) (a.countAbove other) tb ta
      if diff2 < diff then a.walkUp tb ta fuel other other diff2
      else (out, diff)

/-- `Abacus::quantile`: a value of the set at the requested quantile,
found by a local hill-climb from the rounded rank towards the value whose
below/above counts are closest to the rank's ideal distribution. -/
def Abacus.quantile (a : Abacus) (phi : ℚ) : ℚ :=
  if a.len = 0 then 0
  else if phi ≤ 0 then a.min
  else if 1 ≤ phi then a.max
  else if a.len = 1 ∨ a.unique = 1 then a.set.getD 0 0
  else
    let target := (fRound (phi * a.flen)).toNat
    if target = 0 then a.min
    else if a.len - 1 ≤ target then a.max
    else
      let tb := target
      let ta := a.len - (target + 1)
      let start := a.set.getD target 0
      let d0 := quantileDiff (a.countBelow start) (a.countAbove start) tb ta
      let r1 := a.walkDown tb ta a.len start start d0
      let r2 := a.walkUp tb ta a.len start r1.1 r1.2
      r2.1

/-- `Abacus::ideal_quantile`: like `quantile`, but smoothed between the
neighbouring `phi ± epsilon` quantiles when the raw estimate is skewed;
falls back to the raw quantile near the boundaries or when it is zero. -/
def Abacus.idealQuantile (a : Abacus) (phi : ℚ) : ℚ :=
  if a.len = 0 then 0
  else if phi ≤ 0 then a.min
  else if 1 ≤ phi then a.max
  else if a.len = 1 ∨ a.unique = 1 then a.set.getD 0 0
  else
    let epsilon := 1 / (2 * a.flen)
    let q := a.quantile phi
    if q = 0 ∨ phi ≤ 3 / 2 * epsilon ∨ 1 - 3 / 2 * epsilon ≤ phi then q
    else
      let lo := a.quantile (phi - epsilon)
      let hi := a.quantile (phi + epsilon)
      let loDiff := q - lo
      let hiDiff := hi - q
      if hiDiff * 2 ≤ loDiff then (lo + q) / 2
      else if loDiff * 2 ≤ hiDiff then (hi + q) / 2
      else 0

/-- `Abacus::prune_outliers`: under more than one distinct value and a
positive standard deviation, fence at the fuzzy 5th/95th quantiles with a
1.5 IQR margin, retain only in-fence samples, and recompute the cached
totals when the length changed. -/
def Abacus.prune (a : Abacus) (s : SqrtFn) : Abacus :=
  if 1 < a.unique ∧ 0 < a.deviation s then
    let q1 := a.idealQuantile (5 / 100)
    let q3 := a.idealQuantile (95 / 100)
    let iqr := q3 - q1
    let lo := q1 - 3 / 2 * iqr
    let hi := q3 + 3 / 2 * iqr
    let set2 := a.set.filter fun v => decide (lo ≤ v ∧ v ≤ hi)
    if set2.length ≠ a.len then
      { set := set2, len := set2.length, unique := countUnique set2, total := set2.sum }
    else { a with set := set2 }
  else a

/-- `MIN_SAMPLES` (`lib.rs`): the minimum number of samples a benchmark
needs before its stats are trusted. -/
def MIN_SAMPLES : ℕ := 100

/-- `u32::MAX`. -/
def u32Max : ℕ := 2 ^ 32 - 1

/-- `u32::saturating_from` on a `usize`: the value, capped at `u32::MAX`. -/
def satU32 (n : ℕ) : ℕ := if n ≤ u32Max then n else u32Max

/-- `BrunchError` (`error.rs`). -/
inductive BrunchError where
  | DupeName : BrunchError
  | NoBench : BrunchError
  | NoRun : BrunchError
  | Overflow : BrunchError
  | TooFast : BrunchError
  | TooSmall (n : ℕ) : BrunchError
  | TooWild : BrunchError
deriving DecidableEq

/-- `Stats` (`stats.rs`): total samples, valid (post-prune) samples,
standard deviation and mean of the valid samples. The two `u32` fields are
naturals below `2 ^ 32`; the two `f64` fields are rationals. -/
structure Stats where
  total : ℕ
  valid : ℕ
  deviation : ℚ
  mean : ℚ
deriving DecidableEq

/-- `Stats::is_valid`. The source also checks `is_finite` on the two float
fields; finiteness is intrinsic to the rational model, so those conjuncts
are identically true here. -/
def Stats.is_valid (s : Stats) : Prop :=
  MIN_SAMPLES ≤ s.valid ∧ s.valid ≤ s.total ∧ 0 ≤ s.deviation ∧ 0 ≤ s.mean

instance (s : Stats) : Decidable s.is_valid := by
  unfold Stats.is_valid
  infer_instance

/-- `impl TryFrom<Vec<Duration>> for Stats`: reject tiny sample counts,
crunch and prune, reject over-pruned sets, and validate the result. -/
def Stats.tryFrom (s : SqrtFn) (samples : List ℕ) : Except BrunchError Stats :=
  let total := satU32 samples.length
  if total < MIN_SAMPLES then .error (.TooSmall total)
  else
    let calcA := (Abacus.ofDurations samples).prune s
    let valid := satU32 calcA.len
    if valid < MIN_SAMPLES then .error .TooWild
    else
      let mean := calcA.mean
      let deviation := calcA.deviation s
      let out : Stats := ⟨total, valid, deviation, mean⟩
      if out.is_valid then .ok out else .error .Overflow

/-- `Stats::is_deviant`: compare a past run against the present one. The
ANSI string the source formats is abstracted to its numeric content: the
flag is `true` for the `Ordering::Less` branch (current mean smaller —
faster, green, minus sign) and `false` for `Ordering::Greater` (slower,
red, plus sign); the rational is the relative change `diff / other.mean`
the source renders as a percentage. -/
def Stats.isDeviant (self other : Stats) : Option (Bool × ℚ) :=
  let lo := self.mean - 2 * self.deviation
  let hi := self.mean + 2 * self.deviation
  if other.mean < lo ∨ hi < other.mean then
    if self.mean < other.mean then some (true, (other.mean - self.mean) / other.mean)
    else if self.mean = other.mean then none
    else some (false, (self.mean - other.mean) / other.mean)
  else none

/-- One byte of the serialized history. Integer data is a real byte; the
8-byte big-endian bit pattern of an `f64` field is modelled as 8 tokens
carrying the float's exact value and a byte position (the model cannot
spell out IEEE bit patterns of arbitrary rationals). Decoding those 8
tokens recovers the value exactly, mirroring
`f64::from_be_bytes(f64::to_be_bytes(x)) == x`. -/
inductive Tok where
  | byte (b : ℕ) : Tok
  | fb (q : ℚ) (i : Fin 8) : Tok
deriving DecidableEq

/-- The byte value of a token (junk `0` for a float token read as an
integer byte, which `serialize` never produces). -/
def Tok.toByte : Tok → ℕ
  | .byte b => b
  | .fb _ _ => 0

/-- The magic header `b"BRUNCH00"`. -/
def MAGIC : List Tok := [66, 82, 85, 78, 67, 72, 48, 48].map Tok.byte

/-- `u16::to_be_bytes`. -/
def u16be (n : ℕ) : List Tok := [Tok.byte (n / 256 % 256), Tok.byte (n % 256)]

/-- `u32::to_be_bytes`. -/
def u32be (n : ℕ) : List Tok :=
  [Tok.byte (n / 2 ^ 24 % 256), Tok.byte (n / 2 ^ 16 % 256),
   Tok.byte (n / 2 ^ 8 % 256), Tok.byte (n % 256)]

/-- `f64::to_be_bytes`, at the token level: the eight bytes of the bit
pattern, each carrying the exact value. -/
def f64be (q : ℚ) : List Tok :=
  [Tok.fb q 0, Tok.fb q 1, Tok.fb q 2, Tok.fb q 3,
   Tok.fb q 4, Tok.fb q 5, Tok.fb q 6, Tok.fb q 7]

/-- `split_array::<S>`: split off the first `S` tokens when there are
enough of them. -/
def splitToks (s : ℕ) (raw : List Tok) : Option (List Tok × List Tok) :=
  if s ≤ raw.length then some (raw.take s, raw.drop s) else none

/-- `u16::from_be_bytes` over tokens. -/
def tokU16 (l : List Tok) : ℕ :=
  match l with
  | [a, b] => a.toByte * 256 + b.toByte
  | _ => 0

/-- `u32::from_be_bytes` over tokens. -/
def tokU32 (l : List Tok) : ℕ :=
  match l with
  | [a, b, c, d] => ((a.toByte * 256 + b.toByte) * 256 + c.toByte) * 256 + d.toByte
  | _ => 0

/-- `f64::from_be_bytes` over tokens: the 8 tokens produced by `f64be`
carry the value; any other pattern decodes to junk (never produced by
`serialize`). -/
def tokF64 (l : List Tok) : ℚ :=
  match l with
  | .fb q _ :: _ => q
  | _ => 0

/-- A UTF-8 byte of ASCII whitespace, for `str::trim` on benchmark labels
(the labels the tool itself writes are ASCII). -/
def isWsByte (b : ℕ) : Bool := (9 ≤ b && b ≤ 13) || b == 32

/-- `str::trim` at the byte level. -/
def trimBytes (l : List ℕ) : List ℕ :=
  ((l.dropWhile isWsByte).reverse.dropWhile isWsByte).reverse

/-- The `History` inner data, benchmark label bytes → stats. `BTreeMap`
keys are unique; the model is an association list with insert-overwrite. -/
abbrev HistoryData := List (List ℕ × Stats)

/-- `BTreeMap::insert`: overwrite the entry with this key, or append. -/
def hInsert : HistoryData → List ℕ → Stats → HistoryData
  | [], k, v => [(k, v)]
  | (k2, v2) :: t, k, v => if k2 = k then (k, v) :: t else (k2, v2) :: hInsert t k v

/-- `BTreeMap::get`. -/
def hGet : HistoryData → List ℕ → Option Stats
  | [], _ => none
  | (k2, v) :: t, k => if k2 = k then some v else hGet t k

/-- `STAT_SIZE` in `deserialize_entry`: two `u32`s and two `f64`s. -/
def STAT_SIZE : ℕ := 4 + 4 + 8 + 8

/-- `deserialize_entry`: read the label length, bounds-check `len` label
bytes plus `STAT_SIZE` stat bytes, then the trimmed label and the four
fields, returning the remainder. (The model treats label bytes as the
string itself, so the `from_utf8` step is the identity and never fails.) -/
def deserializeEntry (raw : List Tok) : Option (List ℕ × Stats × List Tok) :=
  match splitToks 2 raw with
  | none => none
  | some (len2, raw1) =>
    let len := tokU16 len2
    if raw1.length < len + STAT_SIZE then none
    else
      let lbl := trimBytes ((raw1.take len).map Tok.toByte)
      let raw2 := raw1.drop len
      match splitToks 4 raw2 with
      | none => none
      | some (t4, raw3) =>
        match splitToks 4 raw3 with
        | none => none
        | some (v4, raw4) =>
          match splitToks 8 raw4 with
          | none => none
          | some (d8, raw5) =>
            match splitToks 8 raw5 with
            | none => none
            | some (m8, raw6) =>
              some (lbl, ⟨tokU32 t4, tokU32 v4, tokF64 d8, tokF64 m8⟩, raw6)

/-- The `while let` loop of `deserialize`, with fuel: every successful
`deserialize_entry` consumes at least the two length bytes, so fuel equal
to the input length never runs out. Entries with an empty (trimmed) label
or invalid stats are skipped, not errors. -/
def deserializeLoop : ℕ → HistoryData → List Tok → HistoryData
  | 0, out, _ => out
  | fuel + 1, out, raw =>
    match deserializeEntry raw with
    | none => out
    | some (lbl, stats, rem) =>
      let out2 := if lbl ≠ [] ∧ stats.is_valid then hInsert out lbl stats else out
      if rem = [] then out2 else deserializeLoop fuel out2 rem

/-- `deserialize`: an input without the magic prefix yields the empty map;
otherwise read entries from the rest. -/
def deserialize (raw : List Tok) : HistoryData :=
  if raw.take 8 = MAGIC then deserializeLoop raw.length [] (raw.drop 8) else []

/-- One entry of `serialize`: length-prefixed label then the four fields
(an entry whose label cannot fit the `u16` is skipped — the `continue`). -/
def serializeEntry (lbl : List ℕ) (s : Stats) : List Tok :=
  if 2 ^ 16 ≤ lbl.length then []
  else u16be lbl.length ++ lbl.map Tok.byte ++ u32be s.total ++ u32be s.valid ++
    f64be s.deviation ++ f64be s.mean

/-- The concatenated entries of `serialize`. -/
def serializeBody (h : HistoryData) : List Tok :=
  (h.map fun e => serializeEntry e.1 e.2).flatten

/-- `serialize`: the magic header, then every entry in map order. -/
def serialize (h : HistoryData) : List Tok :=
  MAGIC ++ serializeBody h

/-- What `deserialize` does with one parsed entry: insert it when the label
is nonempty and the stats pass `is_valid`, else skip it. -/
def historyStep (acc : HistoryData) (p : List ℕ × Stats) : HistoryData :=
  if p.1 ≠ [] ∧ p.2.is_valid then hInsert acc p.1 p.2 else acc

/-- The invariant every constructed or pruned sample set maintains: the
sequence is sorted ascending, holds only nonnegative (finite) values, and
the cached scalars agree with it — the length, the sum, and the number of
runs of adjacent equal values. -/
def Abacus.Inv (a : Abacus) : Prop :=
  a.set.Sorted (· ≤ ·) ∧ (∀ x ∈ a.set, 0 ≤ x) ∧
  a.len = a.set.length ∧ a.unique = countUnique a.set ∧ a.total = a.set.sum

instance (a : Abacus) : Decidable a.Inv := by
  unfold Abacus.Inv List.Sorted
  infer_instance

/-- The behaviour of `ideal_quantile` on an interior `phi` over a
non-degenerate set: fall back to the plain quantile when it is zero or
`phi` is within `1.5 * epsilon` of a boundary, otherwise smooth towards
whichever neighbouring quantile is at least twice as far away, and
collapse to `0.0` when the neighbourhood is balanced. -/
def idealQuantileSpec (a : Abacus) (phi : ℚ) : Prop :=
  (a.quantile phi = 0 ∨ phi ≤ 3 / 2 * (1 / (2 * a.flen)) ∨
      1 - 3 / 2 * (1 / (2 * a.flen)) ≤ phi →
    a.idealQuantile phi = a.quantile phi) ∧
  (¬(a.quantile phi = 0 ∨ phi ≤ 3 / 2 * (1 / (2 * a.flen)) ∨
      1 - 3 / 2 * (1 / (2 * a.flen)) ≤ phi) →
    a.idealQuantile phi =
      if (a.quantile (phi + 1 / (2 * a.flen)) - a.quantile phi) * 2 ≤
          a.quantile phi - a.quantile (phi - 1 / (2 * a.flen)) then
        (a.quantile (phi - 1 / (2 * a.flen)) + a.quantile phi) / 2
      else if (a.quantile phi - a.quantile (phi - 1 / (2 * a.flen))) * 2 ≤
          a.quantile (phi + 1 / (2 * a.flen)) - a.quantile phi then
        (a.quantile (phi + 1 / (2 * a.flen)) + a.quantile phi) / 2
      else 0)

/-- The behaviour of `prune_outliers`: a no-op on degenerate sets, and
otherwise an inclusive filter to the `1.5 * IQR` fence around the fuzzy
5th/95th quantiles, with the cached scalars recomputed from the filtered
sequence. -/
def pruneSpec (a : Abacus) (s : SqrtFn) : Prop :=
  (a.unique < 2 ∨ a.deviation s = 0 → a.prune s = a) ∧
  (1 < a.unique → a.deviation s ≠ 0 →
    (a.prune s).set = (a.set.filter fun v => decide
        (a.idealQuantile (5 / 100) -
            3 / 2 * (a.idealQuantile (95 / 100) - a.idealQuantile (5 / 100)) ≤ v ∧
          v ≤ a.idealQuantile (95 / 100) +
            3 / 2 * (a.idealQuantile (95 / 100) - a.idealQuantile (5 / 100)))) ∧
    (a.prune s).len = (a.prune s).set.length ∧
    (a.prune s).unique = countUnique (a.prune s).set ∧
    (a.prune s).total = (a.prune s).set.sum)

/-- The behaviour of `quantile`: `0.0` on the empty set, the min/max at
the clamped ends, always a member of the set, and the single value of a
one-distinct-value set. -/
def quantileSpec (a : Abacus) (phi : ℚ) : Prop :=
  (a.set = [] → a.quantile phi = 0) ∧
  (phi ≤ 0 → a.quantile phi = a.min) ∧
  (1 ≤ phi → a.quantile phi = a.max) ∧
  (a.set ≠ [] → a.quantile phi ∈ a.set) ∧
  (a.set ≠ [] → a.unique = 1 → a.quantile phi = a.set.getD 0 0)

/-- The behaviour of `mean` and `deviation`: the branch values of the two
queries, and the exact results on an all-identical set. -/
def meanDevSpec (a : Abacus) (s : SqrtFn) : Prop :=
  (a.len = 0 → a.mean = 0 ∧ a.deviation s = 0) ∧
  (a.unique = 1 → a.mean = a.set.getD 0 0 ∧ a.deviation s = 0) ∧
  (a.len ≠ 0 → a.unique ≠ 1 →
    a.mean = a.set.sum / (a.len : ℚ) ∧
    a.deviation s =
      s.f (((a.set.map fun x => (a.mean - x) * (a.mean - x)).sum) / (a.len : ℚ))) ∧
  (∀ v n, 0 < n → a.set = List.replicate n v → a.mean = v ∧ a.deviation s = 0)

/-- A concrete `SqrtFn` for running the model: any function with the
contract works, since the engine only ever consumes the square root
through its sign. -/
def sqrtTriv : SqrtFn where
  f := fun q => if 0 < q then 1 else 0
  nonneg := by
    intro q h
    dsimp only
    split <;> norm_num
  pos_iff := by
    intro q h
    dsimp only
    constructor
    · intro hp
      by_contra hq
      rw [if_neg hq] at hp
      exact lt_irrefl 0 hp
    · intro hq
      rw [if_pos hq]
      norm_num

/-- A small sample set whose median is zero: `[0, 0, 0, 1]`. -/
def sampleSetA : Abacus := Abacus.ofF [F.finite 0, F.finite 0, F.finite 0, F.finite 1]

/-- A sample set on which pruning is not idempotent:
`[0, 5, 7, 7, 8, 8, 8, 8, 8, 8, 8]` — the first prune fences at the fuzzy
quantiles `5` and `8` and drops only `0`; the survivors fence at `7` and
`8`, and a second prune drops `5`. -/
def sampleSetB : Abacus :=
  Abacus.ofF ([0, 5, 7, 7, 8, 8, 8, 8, 8, 8, 8].map fun q : ℚ => F.finite q)

/-- A valid history record. -/
def statsGood : Stats := ⟨150, 120, 1, 2⟩

/-- A logically suspect history record: `valid > total`. -/
def statsBad : Stats := ⟨200, 300, 1, 2⟩

/-- A concrete history with one valid and one invalid record. -/
def histPair : HistoryData := [([65], statsGood), ([66], statsBad)]

theorem countUnique_le_length (l : List ℚ) : countUnique l ≤ l.length := by
  induction l with
  | nil => simp [countUnique]
  | cons a t ih =>
    cases t with
    | nil => simp [countUnique]
    | cons b t2 =>
      simp only [countUnique, List.length_cons]
      simp only [List.length_cons] at ih
      split <;> omega

theorem countUnique_pos (l : List ℚ) (h : l ≠ []) : 0 < countUnique l := by
  induction l with
  | nil => exact absurd rfl h
  | cons a t ih =>
    cases t with
    | nil => simp [countUnique]
    | cons b t2 =>
      have := ih (by simp)
      simp only [countUnique]
      omega

theorem countUnique_replicate : ∀ (n : ℕ), 0 < n → ∀ q : ℚ,
    countUnique (List.replicate n q) = 1
  | 1, _, q => by simp [countUnique, List.replicate]
  | n + 2, _, q => by
    have ih := countUnique_replicate (n + 1) (Nat.succ_pos n) q
    rw [List.replicate_succ, List.replicate_succ]
    rw [List.replicate_succ] at ih
    rw [countUnique, ih]
    simp

theorem eq_getD_of_countUnique_eq_one : ∀ (l : List ℚ), countUnique l = 1 →
    ∀ x ∈ l, x = l.getD 0 0
  | [], h, x, hx => by simp at hx
  | [a], _, x, hx => by
    simp only [List.mem_singleton] at hx
    simp [hx]
  | a :: b :: t, h, x, hx => by
    rw [countUnique] at h
    by_cases hab : a = b
    · rw [if_pos hab, Nat.zero_add] at h
      have ih := eq_getD_of_countUnique_eq_one (b :: t) h
      rcases List.mem_cons.mp hx with rfl | hx2
      · simp
      · have := ih x hx2
        simpa [hab] using this
    · rw [if_neg hab] at h
      have := countUnique_pos (b :: t) (by simp)
      omega

theorem filter_eq_self_of_length {p : ℚ → Bool} :
    ∀ (l : List ℚ), (List.filter p l).length = l.length → List.filter p l = l := by
  intro l
  induction l with
  | nil => simp
  | cons a t ih =>
    intro h
    by_cases hp : p a
    · rw [List.filter_cons_of_pos hp] at h ⊢
      simp only [List.length_cons, Nat.add_right_cancel_iff] at h
      rw [ih h]
    · rw [List.filter_cons_of_neg hp] at h
      have := List.length_filter_le p t
      simp only [List.length_cons] at h
      omega

theorem sortQ_sorted (l : List ℚ) : (sortQ l).Sorted (· ≤ ·) :=
  List.sorted_insertionSort _ l

theorem sortQ_perm (l : List ℚ) : (sortQ l).Perm l :=
  List.perm_insertionSort _ l

theorem minNormal_pos : 0 < minNormal := by decide

theorem keepSample_iff (f : F) :
    keepSample f = true ↔ ∃ q, f = F.finite q ∧ (q = 0 ∨ (0 < q ∧ minNormal ≤ q)) := by
  cases f with
  | nan => simp [keepSample, F.cmpZero, F.isNormal]
  | inf neg => cases neg <;> simp [keepSample, F.cmpZero, F.isNormal]
  | finite q =>
    by_cases hlt : q < 0
    · have : ¬ q = 0 := by exact fun hh => absurd hh (by simpa [hh] using hlt.ne)
      simp only [keepSample, F.cmpZero, if_pos hlt]
      constructor
      · intro h
        exact absurd h (by simp)
      · rintro ⟨q', hq', h | h⟩
        · cases hq'
          exact absurd h (by intro hh; rw [hh] at hlt; exact lt_irrefl 0 hlt)
        · cases hq'
          exact absurd h.1 (not_lt.mpr hlt.le)
    · by_cases h0 : q = 0
      · subst h0
        simp [keepSample, F.cmpZero]
      · have hpos : 0 < q := lt_of_le_of_ne (not_lt.mp hlt) (Ne.symm h0)
        simp only [keepSample, F.cmpZero, if_neg hlt, if_neg h0, F.isNormal]
        constructor
        · intro h
          rw [decide_eq_true_eq] at h
          refine ⟨q, rfl, Or.inr ⟨hpos, ?_⟩⟩
          rcases h.2 with h2 | h2
          · exact h2
          · exact absurd h2 (not_le.mpr (by linarith [minNormal_pos]))
        · rintro ⟨q', hq', h | h⟩
          · cases hq'
            exact absurd h h0
          · cases hq'
            rw [decide_eq_true_eq]
            exact ⟨h0, Or.inl h.2⟩

theorem Abacus.ofF_Inv (l : List F) : (Abacus.ofF l).Inv := by
  refine ⟨sortQ_sorted _, ?_, rfl, rfl, rfl⟩
  intro x hx
  have hx2 : x ∈ (l.filter keepSample).map F.toQ := (sortQ_perm _).mem_iff.mp hx
  obtain ⟨f, hf, rfl⟩ := List.mem_map.mp hx2
  obtain ⟨q, rfl, hq⟩ := (keepSample_iff f).mp (List.of_mem_filter hf)
  rcases hq with h | h
  · simp [F.toQ, h]
  · simpa [F.toQ] using h.1.le

theorem Abacus.radicand_nonneg (a : Abacus) : 0 ≤ a.radicand := by
  unfold Abacus.radicand
  apply div_nonneg
  · apply List.sum_nonneg
    intro x hx
    obtain ⟨y, _, rfl⟩ := List.mem_map.mp hx
    exact mul_self_nonneg _
  · exact Nat.cast_nonneg _

theorem Abacus.deviation_nonneg (a : Abacus) (s : SqrtFn) : 0 ≤ a.deviation s := by
  unfold Abacus.deviation
  split
  · exact le_refl 0
  · exact s.nonneg _ a.radicand_nonneg

theorem Abacus.prune_Inv (a : Abacus) (s : SqrtFn) (h : a.Inv) : (a.prune s).Inv := by
  obtain ⟨hs, hn, hl, hu, ht⟩ := h
  unfold Abacus.prune
  split
  · dsimp only
    split
    · exact ⟨hs.filter _, fun x hx => hn x (List.mem_of_mem_filter hx), rfl, rfl, rfl⟩
    · rename_i hne
      rw [not_ne_iff] at hne
      have hself := filter_eq_self_of_length a.set (by rw [hne, hl])
      exact ⟨by rw [hself]; exact hs, by rw [hself]; exact hn,
        by rw [hself]; exact hl, by rw [hself]; exact hu, by rw [hself]; exact ht⟩
  · exact ⟨hs, hn, hl, hu, ht⟩


theorem sortQ_eq_of_sorted_perm (l m : List ℚ) (hp : m.Perm l) (hs : m.Sorted (· ≤ ·)) :
    m = sortQ l :=
  List.eq_of_perm_of_sorted (hp.trans (sortQ_perm l).symm) hs (sortQ_sorted l)

theorem Abacus.deviation_pos_iff (a : Abacus) (s : SqrtFn) :
    0 < a.deviation s ↔ ¬(a.len = 0 ∨ a.unique = 1) ∧ 0 < a.radicand := by
  unfold Abacus.deviation
  split
  · rename_i h
    exact iff_of_false (lt_irrefl 0) fun hh => hh.1 h
  · rename_i h
    rw [s.pos_iff _ a.radicand_nonneg]
    exact (and_iff_right h).symm

theorem Abacus.prune_sqrt_irrel (a : Abacus) (s s2 : SqrtFn) :
    a.prune s = a.prune s2 := by
  have hiff : (1 < a.unique ∧ 0 < a.deviation s) ↔ (1 < a.unique ∧ 0 < a.deviation s2) := by
    rw [a.deviation_pos_iff s, a.deviation_pos_iff s2]
  unfold Abacus.prune
  by_cases h : 1 < a.unique ∧ 0 < a.deviation s
  · rw [if_pos h, if_pos (hiff.mp h)]
  · rw [if_neg h, if_neg fun hh => h (hiff.mpr hh)]

theorem Abacus.prune_set_sublist (a : Abacus) (s : SqrtFn) :
    (a.prune s).set.Sublist a.set := by
  unfold Abacus.prune
  split
  · dsimp only
    split
    · exact List.filter_sublist _
    · exact List.filter_sublist _
  · exact List.Sublist.refl _

/-- C10: after construction from any raw list and after each prune, the
stored sequence is sorted ascending, contains only nonnegative (finite)
values, and the cached scalars agree with it: `len` is its length, `total`
its sum, and `unique` the number of runs of adjacent equal values. -/
theorem sample_set_invariant_claim :
    (∀ l : List F, (Abacus.ofF l).Inv) ∧
    ∀ (a : Abacus) (s : SqrtFn), a.Inv → (a.prune s).Inv :=
  ⟨Abacus.ofF_Inv, fun a s h => Abacus.prune_Inv a s h⟩

/-- C5 counterexample: the smallest positive subnormal `f64`,
`2 ^ (-1074)`, is nonnegative and finite, yet construction drops it (the
`retain` keeps positive values only when `is_normal`), leaving the set
empty — against the claim that every non-negative finite value is kept. -/
theorem abacus_construction_claim_cex :
    0 < mkRat 1 (2 ^ 1074) ∧
    (Abacus.ofF [F.finite (mkRat 1 (2 ^ 1074))]).set = [] := by
  constructor
  · decide
  · decide

/-- C5 (amended): construction from a raw `f64` list keeps exactly `+0.0`
and the positive *normal* values — positive subnormals are dropped along
with negatives, NaNs and infinities — then sorts the remainder ascending
and computes the count, sum, and adjacent-distinct count from it. -/
theorem abacus_construction_claim (l : List F) :
    (Abacus.ofF l).set = sortQ ((l.filter keepSample).map F.toQ) ∧
    (∀ f, keepSample f = true ↔
      ∃ q, f = F.finite q ∧ (q = 0 ∨ (0 < q ∧ minNormal ≤ q))) ∧
    (Abacus.ofF l).set.Sorted (· ≤ ·) ∧
    (Abacus.ofF l).len = (Abacus.ofF l).set.length ∧
    (Abacus.ofF l).unique = countUnique (Abacus.ofF l).set ∧
    (Abacus.ofF l).total = (Abacus.ofF l).set.sum :=
  ⟨rfl, keepSample_iff, sortQ_sorted _, rfl, rfl, rfl⟩

/-- C7 counterexample: on the constructed set
`[0, 5, 7, 7, 8, 8, 8, 8, 8, 8, 8]` the first prune removes only `0`, and
a second prune removes `5` — so pruning twice is not the same as pruning
once. -/
theorem prune_idempotent_claim_cex :
    (sampleSetB.prune sqrtTriv).prune sqrtTriv ≠ sampleSetB.prune sqrtTriv ∧
    sampleSetB.Inv ∧
    sampleSetB.set = [0, 5, 7, 7, 8, 8, 8, 8, 8, 8, 8] ∧
    (sampleSetB.prune sqrtTriv).set = [5, 7, 7, 8, 8, 8, 8, 8, 8, 8] ∧
    ((sampleSetB.prune sqrtTriv).prune sqrtTriv).set = [7, 7, 8, 8, 8, 8, 8, 8, 8] := by
  refine ⟨?_, ?_, ?_, ?_, ?_⟩ <;> decide

/-- C7 (amended): a second prune never re-adds values (its sequence is a
sublist of the first prune's), and re-running prune is a no-op whenever
the first run removed nothing; but in general a second pass may remove
further values (see the counterexample). -/
theorem prune_idempotent_claim :
    (∀ (a : Abacus) (s : SqrtFn), ((a.prune s).prune s).set.Sublist (a.prune s).set) ∧
    ∀ (a : Abacus) (s : SqrtFn), a.prune s = a → (a.prune s).prune s = a.prune s := by
  constructor
  · intro a s
    exact Abacus.prune_set_sublist _ s
  · intro a s hfix
    rw [hfix]
    exact hfix

/-- C9: `mean` is `0.0` on the empty set, the single stored value when
there is one distinct value, and `sum / count` otherwise; `deviation` is
`0.0` on the empty or all-identical set and otherwise the square root of
the mean squared deviation (population form, dividing by `count`); on a
nonempty all-identical set the mean is that value and the deviation is
exactly `0.0`. -/
theorem mean_deviation_claim (a : Abacus) (s : SqrtFn) (h : a.Inv) : meanDevSpec a s := by
  obtain ⟨hs, hn, hl, hu, ht⟩ := h
  refine ⟨?_, ?_, ?_, ?_⟩
  · intro h0
    constructor
    · unfold Abacus.mean
      rw [if_pos h0]
    · unfold Abacus.deviation
      rw [if_pos (Or.inl h0)]
  · intro h1
    have h0 : ¬ a.len = 0 := by
      intro hh
      rw [hh] at hl
      rw [List.length_eq_zero.mp hl.symm] at hu
      simp only [countUnique] at hu
      omega
    constructor
    · unfold Abacus.mean
      rw [if_neg h0, if_pos h1]
    · unfold Abacus.deviation
      rw [if_pos (Or.inr h1)]
  · intro h0 h1
    constructor
    · unfold Abacus.mean Abacus.flen
      rw [if_neg h0, if_neg h1, ht]
    · unfold Abacus.deviation Abacus.radicand Abacus.flen
      rw [if_neg (not_or.mpr ⟨h0, h1⟩)]
  · intro v n hn0 hset
    have hu1 : a.unique = 1 := by rw [hu, hset, countUnique_replicate n hn0 v]
    have h0 : ¬ a.len = 0 := by
      rw [hl, hset, List.length_replicate]
      omega
    constructor
    · unfold Abacus.mean
      rw [if_neg h0, if_pos hu1, hset]
      cases n with
      | zero => omega
      | succ m => simp [List.replicate_succ]
    · unfold Abacus.deviation
      rw [if_pos (Or.inr hu1)]

/-- C9 witness: the branch description holds on the concrete set
`[0, 0, 0, 1]`. -/
theorem mean_deviation_claim_witness : meanDevSpec sampleSetA sqrtTriv :=
  mean_deviation_claim sampleSetA sqrtTriv (by decide)

/-- C3: pruning is a no-op on a set with fewer than two distinct values or
zero standard deviation, and otherwise retains exactly the samples inside
the inclusive `1.5 * IQR` fence around the fuzzy 5th/95th quantiles, with
the cached count, distinct-count and sum agreeing with the filtered
sequence. -/
theorem prune_outliers_claim (a : Abacus) (s : SqrtFn) (h : a.Inv) : pruneSpec a s := by
  constructor
  · intro hcond
    unfold Abacus.prune
    rw [if_neg]
    rintro ⟨h1, h2⟩
    rcases hcond with hc | hc
    · omega
    · rw [hc] at h2
      exact lt_irrefl 0 h2
  · intro hu2 hd
    have hg : 1 < a.unique ∧ 0 < a.deviation s :=
      ⟨hu2, lt_of_le_of_ne (a.deviation_nonneg s) (Ne.symm hd)⟩
    unfold Abacus.prune
    rw [if_pos hg]
    dsimp only
    split
    · exact ⟨rfl, rfl, rfl, rfl⟩
    · rename_i hne
      rw [not_ne_iff] at hne
      have hself := filter_eq_self_of_length a.set (by rw [hne, h.2.2.1])
      refine ⟨rfl, hne.symm, ?_, ?_⟩
      · rw [hself]
        exact h.2.2.2.1
      · rw [hself]
        exact h.2.2.2.2

/-- C3 witness: the fence description holds on the concrete set
`[0, 5, 7, 7, 8, 8, 8, 8, 8, 8, 8]`. -/
theorem prune_outliers_claim_witness : pruneSpec sampleSetB sqrtTriv :=
  prune_outliers_claim sampleSetB sqrtTriv (by decide)

/-- C4: `is_deviant` returns `None` exactly when the previous mean lies in
the two-standard-deviation envelope around the current mean or equals the
current mean; when it returns `Some`, the previous mean is strictly
outside the envelope, the flag says whether the current run is faster, and
the carried relative change is `|self.mean - previous.mean| /
previous.mean`. -/
theorem is_deviant_claim (self other : Stats) :
    (self.isDeviant other = none ↔
      (self.mean - 2 * self.deviation ≤ other.mean ∧
        other.mean ≤ self.mean + 2 * self.deviation) ∨ other.mean = self.mean) ∧
    ∀ r, self.isDeviant other = some r →
      (other.mean < self.mean - 2 * self.deviation ∨
        self.mean + 2 * self.deviation < other.mean) ∧
      other.mean ≠ self.mean ∧
      (r.1 = true ↔ self.mean < other.mean) ∧
      r.2 = |self.mean - other.mean| / other.mean := by
  unfold Stats.isDeviant
  dsimp only
  by_cases hout : other.mean < self.mean - 2 * self.deviation ∨
      self.mean + 2 * self.deviation < other.mean
  · rw [if_pos hout]
    by_cases hlt : self.mean < other.mean
    · rw [if_pos hlt]
      constructor
      · constructor
        · intro h
          exact absurd h (by simp)
        · rintro (⟨h1, h2⟩ | he)
          · rcases hout with ho | ho
            · exact absurd h1 (not_le.mpr ho)
            · exact absurd h2 (not_le.mpr ho)
          · rw [he] at hlt
            exact absurd hlt (lt_irrefl _)
      · intro r hr
        rw [Option.some.injEq] at hr
        subst hr
        refine ⟨hout, ne_of_gt hlt, iff_of_true rfl hlt, ?_⟩
        rw [abs_of_neg (by linarith : self.mean - other.mean < 0), neg_sub]
    · rw [if_neg hlt]
      by_cases heq : self.mean = other.mean
      · rw [if_pos heq]
        constructor
        · exact iff_of_true rfl (Or.inr heq.symm)
        · intro r hr
          exact absurd hr (by simp)
      · rw [if_neg heq]
        have hgt : other.mean < self.mean :=
          lt_of_le_of_ne (not_lt.mp hlt) fun hh => heq hh.symm
        constructor
        · constructor
          · intro h
            exact absurd h (by simp)
          · rintro (⟨h1, h2⟩ | he)
            · rcases hout with ho | ho
              · exact absurd h1 (not_le.mpr ho)
              · exact absurd h2 (not_le.mpr ho)
            · exact absurd he.symm heq
        · intro r hr
          rw [Option.some.injEq] at hr
          subst hr
          refine ⟨hout, ne_of_lt hgt, iff_of_false (by simp) hlt, ?_⟩
          rw [abs_of_pos (sub_pos.mpr hgt)]
  · rw [if_neg hout]
    push_neg at hout
    constructor
    · exact iff_of_true rfl (Or.inl ⟨hout.1, hout.2⟩)
    · intro r hr
      exact absurd hr (by simp)

/-- C2 counterexample: on the constructed set `[0, 0, 0, 1]` at
`phi = 1/2`, all of the claim's conditions for the smoothed branch hold
(more than one distinct value, `phi` interior and not within
`1.5 * epsilon` of a boundary, and `hi_diff >= 2 * lo_diff`), so the claim
predicts the midpoint `(q + hi) / 2 = 1/2`; but the code's extra
`quantile == 0.0` early exit returns `0` instead. -/
theorem ideal_quantile_claim_cex :
    1 < sampleSetA.unique ∧
    (0 : ℚ) < 1 / 2 ∧ (1 : ℚ) / 2 < 1 ∧
    3 / 2 * (1 / (2 * sampleSetA.flen)) < 1 / 2 ∧
    (1 : ℚ) / 2 < 1 - 3 / 2 * (1 / (2 * sampleSetA.flen)) ∧
    ¬((sampleSetA.quantile (1 / 2 + 1 / (2 * sampleSetA.flen)) -
        sampleSetA.quantile (1 / 2)) * 2 ≤
      sampleSetA.quantile (1 / 2) -
        sampleSetA.quantile (1 / 2 - 1 / (2 * sampleSetA.flen))) ∧
    (sampleSetA.quantile (1 / 2) -
        sampleSetA.quantile (1 / 2 - 1 / (2 * sampleSetA.flen))) * 2 ≤
      sampleSetA.quantile (1 / 2 + 1 / (2 * sampleSetA.flen)) -
        sampleSetA.quantile (1 / 2) ∧
    sampleSetA.idealQuantile (1 / 2) ≠
      (sampleSetA.quantile (1 / 2 + 1 / (2 * sampleSetA.flen)) +
        sampleSetA.quantile (1 / 2)) / 2 := by
  refine ⟨?_, ?_, ?_, ?_, ?_, ?_, ?_, ?_⟩ <;> decide

/-- C2 (amended): for a set with more than one distinct value and interior
`phi`, `ideal_quantile` falls back to the plain quantile not only within
`1.5 * epsilon` of the boundaries but also whenever that quantile is
exactly `0.0`; otherwise it returns the midpoint towards whichever
neighbouring quantile is at least twice as far, and `0.0` in the balanced
case. -/
theorem ideal_quantile_claim (a : Abacus) (h : a.Inv) (hu : 1 < a.unique)
    (phi : ℚ) (h0 : 0 < phi) (h1 : phi < 1) : idealQuantileSpec a phi := by
  have hcu : 1 < countUnique a.set := h.2.2.2.1 ▸ hu
  have hlen2 : 2 ≤ a.set.length := le_trans hcu (countUnique_le_length a.set)
  have hl0 : ¬ a.len = 0 := by
    rw [h.2.2.1]
    omega
  have hl1 : ¬ (a.len = 1 ∨ a.unique = 1) := by
    rintro (hh | hh)
    · rw [h.2.2.1] at hh
      omega
    · omega
  constructor
  · intro hcond
    unfold Abacus.idealQuantile
    rw [if_neg hl0, if_neg (not_le.mpr h0), if_neg (not_le.mpr h1), if_neg hl1]
    dsimp only
    rw [if_pos hcond]
  · intro hcond
    unfold Abacus.idealQuantile
    rw [if_neg hl0, if_neg (not_le.mpr h0), if_neg (not_le.mpr h1), if_neg hl1]
    dsimp only
    rw [if_neg hcond]

/-- C2 witness: the amended branch description holds on the concrete set
`[0, 0, 0, 1]` at `phi = 1/2`. -/
theorem ideal_quantile_claim_witness : idealQuantileSpec sampleSetA (1 / 2) :=
  ideal_quantile_claim sampleSetA (by decide) (by decide) (1 / 2) (by decide) (by decide)

theorem stepDownAux_mem : ∀ (prev : ℚ) (l : List ℚ) (num y : ℚ),
    stepDownAux prev l num = some y → y = prev ∨ y ∈ l
  | prev, [], num, y, h => by simp [stepDownAux] at h
  | prev, b :: t, num, y, h => by
    rw [stepDownAux] at h
    by_cases hb : b = num
    · rw [if_pos hb] at h
      exact Or.inl (Option.some.inj h).symm
    · rw [if_neg hb] at h
      rcases stepDownAux_mem b t num y h with h2 | h2
      · exact Or.inr (h2 ▸ List.mem_cons_self b t)
      · exact Or.inr (List.mem_cons_of_mem b h2)

theorem Abacus.stepDown_mem (a : Abacus) (num y : ℚ) (h : a.stepDown num = some y) :
    y ∈ a.set := by
  unfold Abacus.stepDown at h
  rcases hset : a.set with _ | ⟨b, t⟩
  · rw [hset] at h
    simp at h
  · rw [hset] at h
    dsimp only at h
    by_cases hb : b = num
    · rw [if_pos hb] at h
      simp at h
    · rw [if_neg hb] at h
      rcases stepDownAux_mem b t num y h with h2 | h2
      · exact h2 ▸ List.mem_cons_self b t
      · exact List.mem_cons_of_mem b h2

theorem rposAux_lt : ∀ (l : List ℚ) (num : ℚ) (i : ℕ), rposAux l num = some i → i < l.length
  | [], num, i, h => by simp [rposAux] at h
  | b :: t, num, i, h => by
    rw [rposAux] at h
    cases hr : rposAux t num with
    | some j =>
      rw [hr] at h
      dsimp only at h
      have := rposAux_lt t num j hr
      rw [Option.some.injEq] at h
      simp only [List.length_cons]
      omega
    | none =>
      rw [hr] at h
      dsimp only at h
      by_cases hb : b = num
      · rw [if_pos hb, Option.some.injEq] at h
        simp only [List.length_cons]
        omega
      · rw [if_neg hb] at h
        simp at h

theorem Abacus.stepUp_mem (a : Abacus) (hl : a.len = a.set.length) (num y : ℚ)
    (h : a.stepUp num = some y) : y ∈ a.set := by
  unfold Abacus.stepUp at h
  cases hr : rposAux a.set num with
  | none =>
    rw [hr] at h
    simp at h
  | some pos =>
    rw [hr] at h
    dsimp only at h
    by_cases hp : pos + 1 < a.len
    · rw [if_pos hp, Option.some.injEq] at h
      subst h
      rw [List.getD_eq_getElem _ _ (by rw [← hl]; exact hp)]
      exact List.getElem_mem _
    · rw [if_neg hp] at h
      simp at h

theorem Abacus.walkDown_mem (a : Abacus) (tb ta : ℕ) :
    ∀ (fuel : ℕ) (last out diff : ℚ), out ∈ a.set →
      (a.walkDown tb ta fuel last out diff).1 ∈ a.set
  | 0, last, out, diff, h => by
    rw [Abacus.walkDown]
    exact h
  | fuel + 1, last, out, diff, h => by
    rw [Abacus.walkDown]
    cases hsd : a.stepDown last with
    | none =>
      dsimp only
      exact h
    | some other =>
      dsimp only
      split
      · exact a.walkDown_mem tb ta fuel other other _ (a.stepDown_mem last other hsd)
      · exact h

theorem Abacus.walkUp_mem (a : Abacus) (hl : a.len = a.set.length) (tb ta : ℕ) :
    ∀ (fuel : ℕ) (last out diff : ℚ), out ∈ a.set →
      (a.walkUp tb ta fuel last out diff).1 ∈ a.set
  | 0, last, out, diff, h => by
    rw [Abacus.walkUp]
    exact h
  | fuel + 1, last, out, diff, h => by
    rw [Abacus.walkUp]
    cases hsu : a.stepUp last with
    | none =>
      dsimp only
      exact h
    | some other =>
      dsimp only
      split
      · exact a.walkUp_mem hl tb ta fuel other other _ (a.stepUp_mem hl last other hsu)
      · exact h

/-- C6: `quantile` returns `0.0` on the empty set, the minimum for
`phi <= 0`, the maximum for `phi >= 1`, always a value present in the set
when the set is nonempty, and the single value of a one-distinct-value
set. -/
theorem quantile_claim (a : Abacus) (h : a.Inv) (phi : ℚ) : quantileSpec a phi := by
  obtain ⟨hs, hn, hl, hu, ht⟩ := h
  have hmin : a.set ≠ [] → a.min ∈ a.set := by
    intro hne
    have hlen0 : ¬ a.len = 0 := by
      rw [hl]
      exact fun hh => hne (List.length_eq_zero.mp hh)
    unfold Abacus.min
    rw [if_neg hlen0, List.getD_eq_getElem _ _ (List.length_pos.mpr hne)]
    exact List.getElem_mem _
  have hmax : a.set ≠ [] → a.max ∈ a.set := by
    intro hne
    have hlen0 : ¬ a.len = 0 := by
      rw [hl]
      exact fun hh => hne (List.length_eq_zero.mp hh)
    have hpos := List.length_pos.mpr hne
    unfold Abacus.max
    rw [if_neg hlen0, List.getD_eq_getElem _ _ (by rw [hl]; omega)]
    exact List.getElem_mem _
  refine ⟨?_, ?_, ?_, ?_, ?_⟩
  · intro hset
    have h0 : a.len = 0 := by
      rw [hl, hset]
      rfl
    unfold Abacus.quantile
    rw [if_pos h0]
  · intro hphi
    unfold Abacus.quantile
    by_cases h0 : a.len = 0
    · rw [if_pos h0]
      unfold Abacus.min
      rw [if_pos h0]
    · rw [if_neg h0, if_pos hphi]
  · intro hphi
    unfold Abacus.quantile
    by_cases h0 : a.len = 0
    · rw [if_pos h0]
      unfold Abacus.max
      rw [if_pos h0]
    · rw [if_neg h0]
      by_cases hp0 : phi ≤ 0
      · exact absurd (le_trans hphi hp0) (by norm_num)
      · rw [if_neg hp0, if_pos hphi]
  · intro hne
    have hlen0 : ¬ a.len = 0 := by
      rw [hl]
      exact fun hh => hne (List.length_eq_zero.mp hh)
    have hmem0 : a.set.getD 0 0 ∈ a.set := by
      rw [List.getD_eq_getElem _ _ (List.length_pos.mpr hne)]
      exact List.getElem_mem _
    unfold Abacus.quantile
    rw [if_neg hlen0]
    by_cases hp0 : phi ≤ 0
    · rw [if_pos hp0]
      exact hmin hne
    · rw [if_neg hp0]
      by_cases hp1 : 1 ≤ phi
      · rw [if_pos hp1]
        exact hmax hne
      · rw [if_neg hp1]
        by_cases hsingle : a.len = 1 ∨ a.unique = 1
        · rw [if_pos hsingle]
          exact hmem0
        · rw [if_neg hsingle]
          dsimp only
          by_cases htz : (fRound (phi * a.flen)).toNat = 0
          · rw [if_pos htz]
            exact hmin hne
          · rw [if_neg htz]
            by_cases hbig : a.len - 1 ≤ (fRound (phi * a.flen)).toNat
            · rw [if_pos hbig]
              exact hmax hne
            · rw [if_neg hbig]
              have htlt : (fRound (phi * a.flen)).toNat < a.set.length := by
                rw [← hl]
                omega
              have hstart : a.set.getD ((fRound (phi * a.flen)).toNat) 0 ∈ a.set := by
                rw [List.getD_eq_getElem _ _ htlt]
                exact List.getElem_mem _
              exact a.walkUp_mem hl _ _ _ _ _ _ (a.walkDown_mem _ _ _ _ _ _ hstart)
  · intro hne hu1
    have hlen0 : ¬ a.len = 0 := by
      rw [hl]
      exact fun hh => hne (List.length_eq_zero.mp hh)
    have hall : ∀ x ∈ a.set, x = a.set.getD 0 0 :=
      eq_getD_of_countUnique_eq_one a.set (by rw [← hu]; exact hu1)
    unfold Abacus.quantile
    rw [if_neg hlen0]
    by_cases hp0 : phi ≤ 0
    · rw [if_pos hp0]
      unfold Abacus.min
      rw [if_neg hlen0]
    · rw [if_neg hp0]
      by_cases hp1 : 1 ≤ phi
      · rw [if_pos hp1]
        exact hall a.max (hmax hne)
      · rw [if_neg hp1, if_pos (Or.inr hu1)]

/-- C6 witness: the quantile description holds on the concrete set
`[0, 0, 0, 1]` at `phi = 1/2`. -/
theorem quantile_claim_witness : quantileSpec sampleSetA (1 / 2) :=
  quantile_claim sampleSetA (by decide) (1 / 2)

theorem satU32_lt_min_iff (n : ℕ) : satU32 n < MIN_SAMPLES ↔ n < MIN_SAMPLES := by
  unfold satU32 MIN_SAMPLES u32Max
  have h32 : (2 : ℕ) ^ 32 - 1 = 4294967295 := by norm_num
  rw [h32]
  split <;> omega

theorem min_le_satU32_iff (n : ℕ) : MIN_SAMPLES ≤ satU32 n ↔ MIN_SAMPLES ≤ n := by
  unfold satU32 MIN_SAMPLES u32Max
  have h32 : (2 : ℕ) ^ 32 - 1 = 4294967295 := by norm_num
  rw [h32]
  split <;> omega

theorem satU32_eq_of_small (n : ℕ) (h : n < MIN_SAMPLES) : satU32 n = n := by
  unfold satU32 u32Max
  unfold MIN_SAMPLES at h
  have h32 : (2 : ℕ) ^ 32 - 1 = 4294967295 := by norm_num
  rw [h32]
  split <;> omega

theorem mkRat_nat_nonneg (d den : ℕ) : 0 ≤ mkRat d den := by
  rw [Rat.mkRat_eq_div]
  positivity

theorem keep_duration (d : ℕ) : keepSample (F.finite (mkRat d 1000000000)) = true := by
  rcases Nat.eq_zero_or_pos d with rfl | hd
  · decide
  · apply (keepSample_iff _).mpr
    refine ⟨_, rfl, Or.inr ⟨?_, ?_⟩⟩
    · rw [Rat.mkRat_eq_div]
      have : (0 : ℚ) < (d : ℤ) := by exact_mod_cast hd
      positivity
    · have h1 : minNormal ≤ mkRat 1 1000000000 := by decide
      refine le_trans h1 ?_
      rw [Rat.mkRat_eq_div, Rat.mkRat_eq_div]
      refine (div_le_div_iff_of_pos_right (by norm_num)).mpr ?_
      have : (1 : ℤ) ≤ (d : ℤ) := by exact_mod_cast hd
      exact_mod_cast this

theorem Abacus.prune_unique_one (a : Abacus) (s : SqrtFn) (h : a.unique = 1) :
    a.prune s = a := by
  unfold Abacus.prune
  rw [if_neg]
  rintro ⟨h1, _⟩
  omega

theorem Abacus.deviation_unique_one (a : Abacus) (s : SqrtFn) (h : a.unique = 1) :
    a.deviation s = 0 := by
  unfold Abacus.deviation
  rw [if_pos (Or.inr h)]

theorem Abacus.mean_unique_one (a : Abacus) (h : a.unique = 1) (h0 : ¬ a.len = 0) :
    a.mean = a.set.getD 0 0 := by
  unfold Abacus.mean
  rw [if_neg h0, if_pos h]

theorem Abacus.ofDurations_replicate (n d : ℕ) (hn : 0 < n) :
    Abacus.ofDurations (List.replicate n d) =
      { set := List.replicate n (mkRat d 1000000000), len := n, unique := 1,
        total := (n : ℚ) * mkRat d 1000000000 } := by
  unfold Abacus.ofDurations Abacus.ofF
  dsimp only
  rw [List.map_replicate]
  rw [List.filter_eq_self.mpr (by
    intro x hx
    rw [List.eq_of_mem_replicate hx]
    exact keep_duration d)]
  rw [List.map_replicate]
  dsimp only [F.toQ]
  rw [List.perm_replicate.mp (sortQ_perm _)]
  rw [List.length_replicate, countUnique_replicate n hn _, List.sum_replicate, nsmul_eq_mul]

theorem Stats.tryFrom_replicate (s : SqrtFn) (n d : ℕ) (hn : MIN_SAMPLES ≤ n) :
    Stats.tryFrom s (List.replicate n d) =
      .ok ⟨satU32 n, satU32 n, 0, mkRat (d : ℤ) 1000000000⟩ := by
  have h0 : 0 < n := lt_of_lt_of_le (by decide) hn
  have hns : ¬ satU32 n < MIN_SAMPLES := not_lt.mpr ((min_le_satU32_iff n).mpr hn)
  have hget : (List.replicate n (mkRat (d : ℤ) 1000000000)).getD 0 0 =
      mkRat (d : ℤ) 1000000000 := by
    obtain ⟨m, rfl⟩ := Nat.exists_eq_succ_of_ne_zero (Nat.pos_iff_ne_zero.mp h0)
    rw [List.replicate_succ]
    rfl
  have hval : (⟨satU32 n, satU32 n, 0, mkRat (d : ℤ) 1000000000⟩ : Stats).is_valid := by
    unfold Stats.is_valid
    exact ⟨(min_le_satU32_iff n).mpr hn, le_refl _, le_refl 0, mkRat_nat_nonneg d 1000000000⟩
  unfold Stats.tryFrom
  rw [List.length_replicate]
  dsimp only
  rw [if_neg hns]
  rw [Abacus.ofDurations_replicate n d h0]
  rw [Abacus.prune_unique_one _ s rfl]
  dsimp only
  rw [if_neg hns]
  rw [Abacus.mean_unique_one _ rfl (by show ¬ n = 0; omega)]
  rw [Abacus.deviation_unique_one _ s rfl]
  dsimp only
  rw [hget]
  rw [if_pos hval]

/-- C1: `TryFrom<Vec<Duration>>` fails with `TooSmall(total)` exactly when
the sample count is below `MIN_SAMPLES` (checked before pruning); past
that gate it fails with `TooWild` exactly when the pruned count is below
`MIN_SAMPLES`; otherwise it returns the record built from the pruned set's
mean and deviation, failing with `Overflow` exactly when the validity
predicate rejects that record. In particular every `MIN - 1`-element list
fails `TooSmall`, and every uniform list of at least `MIN` identical
durations succeeds with deviation `0`. -/
theorem stats_try_from_claim (s : SqrtFn) (samples : List ℕ) :
    (samples.length < MIN_SAMPLES →
      Stats.tryFrom s samples = .error (.TooSmall samples.length)) ∧
    (MIN_SAMPLES ≤ samples.length →
      (∀ m, Stats.tryFrom s samples ≠ .error (.TooSmall m)) ∧
      (Stats.tryFrom s samples = .error .TooWild ↔
        satU32 ((Abacus.ofDurations samples).prune s).len < MIN_SAMPLES) ∧
      (MIN_SAMPLES ≤ satU32 ((Abacus.ofDurations samples).prune s).len →
        Stats.tryFrom s samples =
          if (⟨satU32 samples.length, satU32 ((Abacus.ofDurations samples).prune s).len,
              ((Abacus.ofDurations samples).prune s).deviation s,
              ((Abacus.ofDurations samples).prune s).mean⟩ : Stats).is_valid
          then .ok ⟨satU32 samples.length, satU32 ((Abacus.ofDurations samples).prune s).len,
              ((Abacus.ofDurations samples).prune s).deviation s,
              ((Abacus.ofDurations samples).prune s).mean⟩
          else .error .Overflow)) ∧
    ∀ (n d : ℕ), MIN_SAMPLES ≤ n →
      Stats.tryFrom s (List.replicate n d) =
        .ok ⟨satU32 n, satU32 n, 0, mkRat (d : ℤ) 1000000000⟩ := by
  refine ⟨?_, ?_, fun n d hn => Stats.tryFrom_replicate s n d hn⟩
  · intro hsmall
    unfold Stats.tryFrom
    dsimp only
    rw [if_pos ((satU32_lt_min_iff _).mpr hsmall), satU32_eq_of_small _ hsmall]
  · intro hbig
    have hns : ¬ satU32 samples.length < MIN_SAMPLES :=
      not_lt.mpr ((min_le_satU32_iff _).mpr hbig)
    refine ⟨?_, ?_, ?_⟩
    · intro m
      unfold Stats.tryFrom
      dsimp only
      rw [if_neg hns]
      split
      · simp
      · split
        · simp
        · simp
    · unfold Stats.tryFrom
      dsimp only
      rw [if_neg hns]
      by_cases hw : satU32 ((Abacus.ofDurations samples).prune s).len < MIN_SAMPLES
      · rw [if_pos hw]
        exact iff_of_true rfl hw
      · rw [if_neg hw]
        refine iff_of_false ?_ hw
        split
        · simp
        · simp
    · intro hv
      unfold Stats.tryFrom
      dsimp only
      rw [if_neg hns, if_neg (not_lt.mpr hv)]

/-- C1 witness: a uniform list of 100 durations of 5 nanoseconds passes
with zero deviation and mean `5e-9` seconds. -/
theorem stats_try_from_claim_witness :
    Stats.tryFrom sqrtTriv (List.replicate 100 5) =
      .ok ⟨satU32 100, satU32 100, 0, mkRat (5 : ℤ) 1000000000⟩ :=
  (stats_try_from_claim sqrtTriv (List.replicate 100 5)).2.2 100 5 (by decide)

theorem splitToks_append (k : ℕ) (pre rest : List Tok) (h : pre.length = k) :
    splitToks k (pre ++ rest) = some (pre, rest) := by
  subst h
  unfold splitToks
  rw [if_pos (by simp)]
  rw [List.take_left, List.drop_left]

theorem tokU16_u16be (n : ℕ) (h : n < 2 ^ 16) : tokU16 (u16be n) = n := by
  unfold tokU16 u16be Tok.toByte
  have h16 : (2 : ℕ) ^ 16 = 65536 := by norm_num
  rw [h16] at h
  dsimp only
  omega

theorem tokU32_u32be (n : ℕ) (h : n < 2 ^ 32) : tokU32 (u32be n) = n := by
  unfold tokU32 u32be Tok.toByte
  have h32 : (2 : ℕ) ^ 32 = 4294967296 := by norm_num
  have h24 : (2 : ℕ) ^ 24 = 16777216 := by norm_num
  have h16 : (2 : ℕ) ^ 16 = 65536 := by norm_num
  have h8 : (2 : ℕ) ^ 8 = 256 := by norm_num
  rw [h32] at h
  rw [h24, h16, h8]
  dsimp only
  omega

theorem tokF64_f64be (q : ℚ) : tokF64 (f64be q) = q := rfl

theorem serializeEntry_length (l : List ℕ) (s : Stats) (hfit : l.length < 2 ^ 16) :
    (serializeEntry l s).length = l.length + 26 := by
  unfold serializeEntry
  rw [if_neg (not_le.mpr hfit)]
  simp [u16be, u32be, f64be]

theorem deserializeEntry_serializeEntry (l : List ℕ) (s : Stats) (rest : List Tok)
    (hfit : l.length < 2 ^ 16) (ht : s.total < 2 ^ 32) (hv : s.valid < 2 ^ 32) :
    deserializeEntry (serializeEntry l s ++ rest) = some (trimBytes l, s, rest) := by
  unfold serializeEntry
  rw [if_neg (not_le.mpr hfit)]
  unfold deserializeEntry
  rw [List.append_assoc, List.append_assoc, List.append_assoc, List.append_assoc,
    List.append_assoc]
  rw [splitToks_append 2 (u16be l.length) _ rfl]
  dsimp only
  rw [tokU16_u16be _ hfit]
  rw [if_neg (by
    simp only [List.length_append, List.length_map, u32be, f64be, List.length_cons,
      List.length_nil, STAT_SIZE]
    omega)]
  have htake : ∀ R : List Tok, (List.map Tok.byte l ++ R).take l.length = List.map Tok.byte l :=
    fun R => List.take_left' (by simp)
  have hdrop : ∀ R : List Tok, (List.map Tok.byte l ++ R).drop l.length = R :=
    fun R => List.drop_left' (by simp)
  rw [htake, hdrop]
  have hid : List.map Tok.toByte (List.map Tok.byte l) = l := by
    rw [List.map_map]
    exact List.map_id l
  rw [hid]
  rw [splitToks_append 4 (u32be s.total) _ rfl]
  dsimp only
  rw [splitToks_append 4 (u32be s.valid) _ rfl]
  dsimp only
  rw [splitToks_append 8 (f64be s.deviation) _ rfl]
  dsimp only
  rw [splitToks_append 8 (f64be s.mean) _ rfl]
  dsimp only
  rw [tokU32_u32be _ ht, tokU32_u32be _ hv, tokF64_f64be, tokF64_f64be]

theorem serializeBody_cons (p : List ℕ × Stats) (t : HistoryData) :
    serializeBody (p :: t) = serializeEntry p.1 p.2 ++ serializeBody t := by
  simp [serializeBody]

theorem deserializeLoop_serializeBody :
    ∀ (h : HistoryData) (acc : HistoryData) (fuel : ℕ),
      (serializeBody h).length ≤ fuel →
      (∀ p ∈ h, p.1.length < 2 ^ 16 ∧ p.2.total < 2 ^ 32 ∧ p.2.valid < 2 ^ 32 ∧
        trimBytes p.1 = p.1) →
      deserializeLoop fuel acc (serializeBody h) = h.foldl historyStep acc
  | [], acc, fuel, hf, hp => by
    cases fuel with
    | zero => rfl
    | succ f => rfl
  | (l, s) :: t, acc, fuel, hfuel, hp => by
    obtain ⟨hfit, ht, hv, htrim⟩ := hp (l, s) (List.mem_cons_self _ _)
    have hbody : serializeBody ((l, s) :: t) = serializeEntry l s ++ serializeBody t :=
      serializeBody_cons (l, s) t
    have hel : (serializeEntry l s).length = l.length + 26 := serializeEntry_length l s hfit
    have hfuel2 : l.length + 26 + (serializeBody t).length ≤ fuel := by
      rw [hbody, List.length_append, hel] at hfuel
      omega
    obtain ⟨fuel2, rfl⟩ : ∃ f2, fuel = f2 + 1 := ⟨fuel - 1, by omega⟩
    rw [hbody, deserializeLoop]
    rw [deserializeEntry_serializeEntry l s _ hfit ht hv]
    dsimp only
    rw [htrim]
    rw [List.foldl_cons]
    by_cases hrem : serializeBody t = []
    · rw [if_pos hrem]
      have ht0 : t = [] := by
        cases t with
        | nil => rfl
        | cons p t2 =>
          exfalso
          obtain ⟨hfit2, _, _, _⟩ := hp p (List.mem_cons_of_mem _ (List.mem_cons_self _ _))
          have hb2 := serializeBody_cons p t2
          rw [hb2] at hrem
          have he2 := serializeEntry_length p.1 p.2 hfit2
          have hz : (serializeEntry p.1 p.2 ++ serializeBody t2).length = 0 := by
            rw [hrem]
            rfl
          rw [List.length_append, he2] at hz
          omega
      subst ht0
      unfold historyStep
      rfl
    · rw [if_neg hrem]
      rw [deserializeLoop_serializeBody t _ fuel2 (by omega)
        (fun p hp2 => hp p (List.mem_cons_of_mem _ hp2))]
      unfold historyStep
      rfl

theorem hGet_hInsert_self : ∀ (h : HistoryData) (k : List ℕ) (v : Stats),
    hGet (hInsert h k v) k = some v
  | [], k, v => by simp [hInsert, hGet]
  | (k2, v2) :: t, k, v => by
    rw [hInsert]
    by_cases hk : k2 = k
    · rw [if_pos hk, hGet, if_pos rfl]
    · rw [if_neg hk, hGet, if_neg hk]
      exact hGet_hInsert_self t k v

theorem hGet_hInsert_ne : ∀ (h : HistoryData) (k k2 : List ℕ) (v : Stats), k2 ≠ k →
    hGet (hInsert h k v) k2 = hGet h k2
  | [], k, k2, v, hne => by
    simp only [hInsert, hGet]
    rw [if_neg (fun hh => hne hh.symm)]
  | (k3, v3) :: t, k, k2, v, hne => by
    rw [hInsert]
    by_cases hk : k3 = k
    · subst hk
      rw [if_pos rfl, hGet, hGet, if_neg (fun hh => hne hh.symm),
        if_neg (fun hh => hne hh.symm)]
    · rw [if_neg hk, hGet, hGet]
      by_cases hk2 : k3 = k2
      · rw [if_pos hk2, if_pos hk2]
      · rw [if_neg hk2, if_neg hk2]
        exact hGet_hInsert_ne t k k2 v hne

theorem hGet_foldl_not_mem : ∀ (t : HistoryData) (acc : HistoryData) (k : List ℕ),
    k ∉ t.map Prod.fst → hGet (t.foldl historyStep acc) k = hGet acc k
  | [], acc, k, _ => rfl
  | p :: t, acc, k, hk => by
    rw [List.foldl_cons]
    have hk1 : k ∉ t.map Prod.fst := by
      intro hh
      exact hk (by simp [hh])
    have hkp : k ≠ p.1 := by
      intro hh
      exact hk (by simp [hh])
    rw [hGet_foldl_not_mem t _ k hk1]
    unfold historyStep
    split
    · exact hGet_hInsert_ne acc p.1 k p.2 hkp
    · rfl

theorem hGet_foldl : ∀ (t : HistoryData) (acc : HistoryData) (p : List ℕ × Stats),
    p ∈ t → (t.map Prod.fst).Nodup →
    hGet (t.foldl historyStep acc) p.1 =
      if p.1 ≠ [] ∧ p.2.is_valid then some p.2 else hGet acc p.1
  | [], acc, p, hmem, _ => absurd hmem (List.not_mem_nil p)
  | q :: t, acc, p, hmem, hnd => by
    rw [List.map_cons] at hnd
    have hnd2 := List.nodup_cons.mp hnd
    rw [List.foldl_cons]
    rcases List.mem_cons.mp hmem with rfl | hmem2
    · rw [hGet_foldl_not_mem t _ p.1 hnd2.1]
      unfold historyStep
      split
      · exact hGet_hInsert_self acc p.1 p.2
      · rfl
    · have hq : p.1 ≠ q.1 := by
        intro hh
        exact hnd2.1 (hh ▸ List.mem_map.mpr ⟨p, hmem2, rfl⟩)
      rw [hGet_foldl t (historyStep acc q) p hmem2 hnd2.2]
      have hacc : hGet (historyStep acc q) p.1 = hGet acc p.1 := by
        unfold historyStep
        split
        · exact hGet_hInsert_ne acc q.1 p.1 q.2 hq
        · rfl
      rw [hacc]

theorem deserialize_serialize (h : HistoryData)
    (hp : ∀ p ∈ h, p.1.length < 2 ^ 16 ∧ p.2.total < 2 ^ 32 ∧ p.2.valid < 2 ^ 32 ∧
      trimBytes p.1 = p.1) :
    deserialize (serialize h) = h.foldl historyStep [] := by
  unfold deserialize serialize
  rw [List.take_left' (by rfl), List.drop_left' (by rfl), if_pos rfl]
  exact deserializeLoop_serializeBody h [] _ (by simp) hp

/-- C8: serializing a history whose names are distinct, trimmed and fit
the `u16` length field and whose `u32` fields are in range, then
deserializing, reproduces each record with a nonempty name and valid stats
exactly (bit-for-bit in the token model), and silently drops — rather
than erroring on — each record with an empty name or invalid stats (such
as `valid > total`). -/
theorem history_roundtrip_claim (h : HistoryData)
    (hkeys : (h.map Prod.fst).Nodup)
    (hfit : ∀ p ∈ h, p.1.length < 2 ^ 16)
    (htrim : ∀ p ∈ h, trimBytes p.1 = p.1)
    (hbound : ∀ p ∈ h, p.2.total < 2 ^ 32 ∧ p.2.valid < 2 ^ 32) :
    ∀ p ∈ h, hGet (deserialize (serialize h)) p.1 =
      if p.1 ≠ [] ∧ p.2.is_valid then some p.2 else none := by
  intro p hpmem
  rw [deserialize_serialize h (fun p2 hp2 =>
    ⟨hfit p2 hp2, (hbound p2 hp2).1, (hbound p2 hp2).2, htrim p2 hp2⟩)]
  rw [hGet_foldl h [] p hpmem hkeys]
  rfl

/-- C8 witness: on the concrete two-record history, the valid record
round-trips exactly and the `valid > total` record is dropped. -/
theorem history_roundtrip_claim_witness :
    (hGet (deserialize (serialize histPair)) [65] =
      if ([65] : List ℕ) ≠ [] ∧ statsGood.is_valid then some statsGood else none) ∧
    hGet (deserialize (serialize histPair)) [66] =
      (if ([66] : List ℕ) ≠ [] ∧ statsBad.is_valid then some statsBad else none) :=
  ⟨history_roundtrip_claim histPair (by decide) (by decide) (by decide) (by decide)
      ([65], statsGood) (by decide),
    history_roundtrip_claim histPair (by decide) (by decide) (by decide) (by decide)
      ([66], statsBad) (by decide)⟩

end Brunch
